import Mathlib

/-!
Verification of the sonoUno library's Track core: the time-indexed sample
buffer and mixing engine, the waveform generators, the note resolver and the
WAV codec, as described by the repository documentation
(`docs/getting_started.md`, `README.md`) and its design specification.

The Python package `sonounolib` itself is not part of the source tree at hand
(only its documentation, notebooks and build scripts are), so the operations
are modelled from the specification, pinned where ambiguous by the repository
documentation.  Samples are modelled as real numbers, durations and amplitudes
as real numbers, and fallible operations return `Except`.
-/

/-- Modelled from the spec: the error taxonomy of §7 for the core operations
(`sonounolib` exception classes are not in the source tree).  `BackendUnavailable`
belongs to the external playback dispatcher and is out of the core's scope. -/
inductive TrackError where
  | invalidParameter
  | invalidPitchName
  | unsupportedFormat
  | ioFailure
deriving DecidableEq, Repr

/-- Modelled from the spec: the `max_amplitude` constructor argument, either a
named alias (`"int16"`, `"int32"`) or a number used as-is. -/
inductive MaxAmplitude where
  | int16
  | int32
  | value (x : ℝ)

/-- Modelled from the spec: the amplitude alias table of §6:
`"int16" -> 32767`, `"int32" -> 2147483647`, numeric value used as-is. -/
def resolveMaxAmplitude : MaxAmplitude → ℝ
  | .int16 => 32767
  | .int32 => 2147483647
  | .value x => x

/-- Modelled from the spec: the Track aggregate of §3 (`sonounolib/tracks.py`
is not in the source tree): a sample rate, a maximum amplitude, the sample
buffer (float64 array, modelled as a list of reals) and the write cursor. -/
@[ext]
structure Track where
  sample_rate : ℕ
  max_amplitude : ℝ
  samples : List ℝ
  cue_write : ℕ

/-- Modelled from the spec: Track construction with the §6 defaults
`sample_rate = 44100` and `max_amplitude = 1`; buffer empty, cursor at 0. -/
def Track.new (sample_rate : ℕ := 44100) (max_amplitude : MaxAmplitude := .value 1) :
    Track :=
  { sample_rate := sample_rate
    max_amplitude := resolveMaxAmplitude max_amplitude
    samples := []
    cue_write := 0 }

/-- Modelled from the spec: `ensure_length(n)` of §4.1 grows the backing
storage so that index `n-1` is addressable, zero-filling the new region.
(The amortized-growth requirement is a complexity property, not modelled.) -/
def Track.ensure_length (t : Track) (n : ℕ) : Track :=
  { t with samples := t.samples ++ List.replicate (n - t.samples.length) (0 : ℝ) }

/-- Pointwise additive merge of `values` into `xs` starting at `offset`;
the helper realizing `samples[offset+i] += values[i]` of §4.1. -/
def addAt : List ℝ → ℕ → List ℝ → List ℝ
  | xs, _, [] => xs
  | [], _, _ :: _ => []
  | x :: xs, 0, v :: vs => (x + v) :: addAt xs 0 vs
  | x :: xs, o + 1, v :: vs => x :: addAt xs o (v :: vs)

/-- Modelled from the spec: `write(offset, values)` of §4.1: first
`ensure_length(offset + len(values))`, then `samples[offset+i] += values[i]`. -/
def Track.write (t : Track) (offset : ℕ) (values : List ℝ) : Track :=
  let t2 := t.ensure_length (offset + values.length)
  { t2 with samples := addAt t2.samples offset values }

/-- Modelled from the spec: `set_cue_write(time_s)` of §4.1 sets the cursor to
`round(time_s * sample_rate)`, rejecting a negative cue index with
`InvalidParameter` (§7). -/
noncomputable def Track.set_cue_write (t : Track) (time : ℝ) : Except TrackError Track :=
  if round (time * (t.sample_rate : ℝ)) < 0 then .error .invalidParameter
  else .ok { t with cue_write := (round (time * (t.sample_rate : ℝ))).toNat }

/-- Modelled from the spec: the sine waveform generator of §4.2, with phase
starting at 0 at the start of the generated segment.  The amplitude factor is
used as an absolute sample value, as pinned by `docs/getting_started.md`
(an `int16` track needs `amplitude=32767/4` to reach a quarter of full scale),
not multiplied by `max_amplitude`. -/
noncomputable def sineWave (rate : ℕ) (frequency amplitude : ℝ) (n : ℕ) : List ℝ :=
  (List.range n).map fun i : ℕ =>
    amplitude * Real.sin (2 * Real.pi * frequency * (i : ℝ) / (rate : ℝ))

/-- Modelled from the spec: semitone offset of the note letters in the
12-tone scale used by the §4.3 MIDI-style numbering (C=0 .. B=11). -/
def letterSemitone : Char → Option ℤ
  | 'C' => some 0
  | 'D' => some 2
  | 'E' => some 4
  | 'F' => some 5
  | 'G' => some 7
  | 'A' => some 9
  | 'B' => some 11
  | _ => none

/-- Decimal value of a non-empty all-digit character list; `none` otherwise. -/
def parseDigits : List Char → Option ℕ
  | [] => none
  | [c] => if c.isDigit then some (c.toNat - 48) else none
  | c :: c2 :: rest =>
    if c.isDigit then
      match parseDigits (c2 :: rest) with
      | some v => some ((c.toNat - 48) * 10 ^ (c2 :: rest).length + v)
      | none => none
    else none

/-- Modelled from the spec: parsing of the §4.3 pitch grammar
`[A-G][#b]?-?\d+` into the MIDI-style semitone number
`12 * (octave + 1) + letter + accidental`; `none` on a malformed string. -/
def parsePitch : List Char → Option ℤ
  | [] => none
  | c :: rest =>
    match letterSemitone c with
    | none => none
    | some ls =>
      let acc : ℤ :=
        if rest.head? = some '#' then 1 else if rest.head? = some 'b' then -1 else 0
      let rest2 : List Char :=
        if rest.head? = some '#' ∨ rest.head? = some 'b' then rest.tail else rest
      let neg : Bool := decide (rest2.head? = some '-')
      let rest3 : List Char :=
        if rest2.head? = some '-' then rest2.tail else rest2
      match parseDigits rest3 with
      | none => none
      | some o =>
        some (12 * ((if neg then -(o : ℤ) else (o : ℤ)) + 1) + ls + acc)

/-- Stated from the spec's own words: a Boolean recognizer for the grammar
`[A-G][#b]?-?\d+` of §4.3: a letter in the range A..G, an optional accidental,
an optional minus sign, and a non-empty run of digits reaching the end. -/
def matchesPitchGrammar : List Char → Bool
  | [] => false
  | c :: rest =>
    (decide ('A' ≤ c) && decide (c ≤ 'G')) &&
      (let rest2 : List Char :=
        if rest.head? = some '#' ∨ rest.head? = some 'b' then rest.tail else rest
      let rest3 : List Char :=
        if rest2.head? = some '-' then rest2.tail else rest2
      !rest3.isEmpty && rest3.all Char.isDigit)

/-- Modelled from the spec: the §4.3 equal-temperament formula
`f = 440 * 2^((n - 69) / 12)` referenced to A4 = 440 Hz. -/
noncomputable def midiFrequency (n : ℤ) : ℝ :=
  440 * (2 : ℝ) ^ (((n : ℝ) - 69) / 12)

/-- Modelled from the spec: the Note Resolver of §4.3, a pure function from a
pitch-notation string to a frequency in Hertz, failing with
`InvalidPitchName` on a string outside the grammar. -/
noncomputable def resolvePitch (s : String) : Except TrackError ℝ :=
  match parsePitch s.toList with
  | none => .error .invalidPitchName
  | some n => .ok (midiFrequency n)

/-- Modelled from the spec: the §9 tagged union for the duck-typed pitch
argument of `add_sine_wave`: a numeric frequency in Hertz, or a note name. -/
inductive Pitch where
  | hertz (f : ℝ)
  | name (s : String)

/-- Modelled from the spec: a numeric pitch is taken as-is; a note name is
resolved by the Note Resolver (§4.1, §9). -/
noncomputable def resolveFrequency : Pitch → Except TrackError ℝ
  | .hertz f => .ok f
  | .name s => resolvePitch s

/-- Modelled from the spec: `add_sine_wave(pitch, duration, amplitude)` of
§4.1: resolves the pitch, rejects a non-positive frequency or a negative
duration with `InvalidParameter`, generates `round(duration * sample_rate)`
sine samples, writes them additively at `cue_write` and advances the cursor
by the generated length, returning the mutated Track. -/
noncomputable def Track.add_sine_wave (t : Track) (pitch : Pitch)
    (duration : ℝ) (amplitude : ℝ := 1) : Except TrackError Track :=
  match resolveFrequency pitch with
  | .error e => .error e
  | .ok f =>
    if f ≤ 0 then .error .invalidParameter
    else if duration < 0 then .error .invalidParameter
    else
      let n := (round (duration * (t.sample_rate : ℝ))).toNat
      .ok { t.write t.cue_write (sineWave t.sample_rate f amplitude n) with
              cue_write := t.cue_write + n }

/-- Modelled from the spec: `add_blank(duration)` of §4.1, a write of
`round(duration * sample_rate)` zeros at the cursor followed by the cursor
advance; a negative duration fails with `InvalidParameter`. -/
noncomputable def Track.add_blank (t : Track) (duration : ℝ) :
    Except TrackError Track :=
  if duration < 0 then .error .invalidParameter
  else
    let n := (round (duration * (t.sample_rate : ℝ))).toNat
    .ok { t.write t.cue_write (List.replicate n (0 : ℝ)) with
            cue_write := t.cue_write + n }

/-- Modelled from the spec: the §4.4 quantization used by export and playback:
multiply by `full_scale / max_amplitude`, round to the nearest integer, and
saturate to the representable signed range `[-(full_scale+1), full_scale]`
instead of wrapping. -/
noncomputable def quantize (full_scale : ℕ) (max_amplitude x : ℝ) : ℤ :=
  max (-((full_scale : ℤ) + 1)) (min (full_scale : ℤ) (round (x * (full_scale : ℝ) / max_amplitude)))

/-- Modelled from the spec: the serialization side of the §4.4 Codec (named
`export` in the contract; that word is a Lean keyword): the declared sample
rate together with every sample quantized at the given full scale. -/
noncomputable def Track.exportData (t : Track) (full_scale : ℕ) : ℕ × List ℤ :=
  (t.sample_rate, t.samples.map (quantize full_scale t.max_amplitude))

/-- Modelled from the spec: the deserialization side of the §4.4 Codec:
rescales the integer samples by dividing by the full-scale constant and
returns a Track (default maximum amplitude) whose `cue_write` sits at the end
of the loaded audio. -/
noncomputable def Track.load (full_scale : ℕ) (rate : ℕ) (data : List ℤ) : Track :=
  { sample_rate := rate
    max_amplitude := 1
    samples := data.map fun z : ℤ => (z : ℝ) / (full_scale : ℝ)
    cue_write := data.length }

/-- Modelled from the spec: `render()` of §4.5, the single capability exposed
to the playback dispatcher: the sample rate and the quantized buffer. -/
noncomputable def Track.render (t : Track) (full_scale : ℕ) : ℕ × List ℤ :=
  (t.sample_rate, t.samples.map (quantize full_scale t.max_amplitude))

/-- Modelled from the spec: the Track operations a client sequence is made of
(§6 public contract), for stating properties of whole call sequences. -/
inductive TrackOp where
  | sine (pitch : Pitch) (duration amplitude : ℝ)
  | blank (duration : ℝ)
  | setCue (time : ℝ)

/-- Single-step interpretation of a `TrackOp`. -/
noncomputable def applyOp (t : Track) : TrackOp → Except TrackError Track
  | .sine p d a => t.add_sine_wave p d a
  | .blank d => t.add_blank d
  | .setCue x => t.set_cue_write x

/-- Interpretation of a sequence of `TrackOp`s, stopping at the first error. -/
noncomputable def runOps (t : Track) : List TrackOp → Except TrackError Track
  | [] => .ok t
  | op :: rest => (applyOp t op).bind fun t2 => runOps t2 rest

/-- Number of samples an operation writes (`none` for the pure cursor move). -/
noncomputable def opLen (t : Track) : TrackOp → Option ℕ
  | .sine _ d _ => some ((round (d * (t.sample_rate : ℝ))).toNat)
  | .blank d => some ((round (d * (t.sample_rate : ℝ))).toNat)
  | .setCue _ => none

/-- The (offset, length) extent of every successful write performed while
interpreting a sequence of operations. -/
noncomputable def extents (t : Track) : List TrackOp → List (ℕ × ℕ)
  | [] => []
  | op :: rest =>
    match applyOp t op with
    | .error _ => []
    | .ok t2 =>
      (match opLen t op with
        | some n => [(t.cue_write, n)]
        | none => []) ++ extents t2 rest

@[simp]
theorem ensure_length_sample_rate (t : Track) (n : ℕ) :
    (t.ensure_length n).sample_rate = t.sample_rate := rfl

@[simp]
theorem ensure_length_max_amplitude (t : Track) (n : ℕ) :
    (t.ensure_length n).max_amplitude = t.max_amplitude := rfl

@[simp]
theorem ensure_length_cue_write (t : Track) (n : ℕ) :
    (t.ensure_length n).cue_write = t.cue_write := rfl

@[simp]
theorem ensure_length_samples_length (t : Track) (n : ℕ) :
    (t.ensure_length n).samples.length = max t.samples.length n := by
  simp [Track.ensure_length]
  omega

theorem ensure_length_samples_getD (t : Track) (n : ℕ) (i : ℕ) :
    (t.ensure_length n).samples.getD i 0 = t.samples.getD i 0 := by
  unfold Track.ensure_length
  rcases Nat.lt_or_ge i t.samples.length with h | h
  · exact List.getD_append _ _ _ _ h
  · rw [List.getD_append_right _ _ _ _ h, List.getD_eq_default _ _ h]
    simp [List.getD]

@[simp]
theorem addAt_length (xs : List ℝ) (o : ℕ) (vs : List ℝ) :
    (addAt xs o vs).length = xs.length := by
  induction xs generalizing o vs with
  | nil => cases vs <;> simp [addAt]
  | cons x xs ih =>
    cases vs with
    | nil => simp [addAt]
    | cons v vs =>
      cases o with
      | zero => simp [addAt, ih]
      | succ o => simp [addAt, ih]

theorem addAt_getD (xs vs : List ℝ) (o : ℕ) (h : o + vs.length ≤ xs.length) (i : ℕ) :
    (addAt xs o vs).getD i 0
      = xs.getD i 0 + (if o ≤ i ∧ i - o < vs.length then vs.getD (i - o) 0 else 0) := by
  induction xs generalizing o vs i with
  | nil =>
    cases vs with
    | nil => simp [addAt]
    | cons v vs => simp at h
  | cons x xs ih =>
    cases vs with
    | nil => simp [addAt]
    | cons v vs =>
      cases o with
      | zero =>
        cases i with
        | zero => simp [addAt]
        | succ i =>
          simp only [addAt, List.getD_cons_succ]
          rw [ih vs 0 (by simp only [List.length_cons] at h; omega) i]
          simp only [List.length_cons, Nat.sub_zero, Nat.zero_le, true_and,
            Nat.add_lt_add_iff_right, List.getD_cons_succ]
      | succ o =>
        cases i with
        | zero =>
          simp only [addAt, List.getD_cons_zero]
          rw [if_neg (by omega)]
          ring
        | succ i =>
          simp only [addAt, List.getD_cons_succ]
          rw [ih (v :: vs) o (by simp only [List.length_cons] at h ⊢; omega) i]
          simp only [Nat.add_sub_add_right, Nat.add_le_add_iff_right]

@[simp]
theorem write_sample_rate (t : Track) (o : ℕ) (vs : List ℝ) :
    (t.write o vs).sample_rate = t.sample_rate := rfl

@[simp]
theorem write_max_amplitude (t : Track) (o : ℕ) (vs : List ℝ) :
    (t.write o vs).max_amplitude = t.max_amplitude := rfl

@[simp]
theorem write_cue_write (t : Track) (o : ℕ) (vs : List ℝ) :
    (t.write o vs).cue_write = t.cue_write := rfl

@[simp]
theorem write_samples_length (t : Track) (o : ℕ) (vs : List ℝ) :
    (t.write o vs).samples.length = max t.samples.length (o + vs.length) := by
  simp [Track.write]

theorem write_samples_getD (t : Track) (o : ℕ) (vs : List ℝ) (i : ℕ) :
    (t.write o vs).samples.getD i 0
      = t.samples.getD i 0 + (if o ≤ i ∧ i - o < vs.length then vs.getD (i - o) 0 else 0) := by
  unfold Track.write
  rw [addAt_getD _ _ _ (by simp) i, ensure_length_samples_getD]

@[simp]
theorem sineWave_length (rate : ℕ) (f a : ℝ) (n : ℕ) :
    (sineWave rate f a n).length = n := by
  unfold sineWave
  rw [List.length_map, List.length_range]

theorem sineWave_getD (rate : ℕ) (f a : ℝ) (n i : ℕ) (h : i < n) :
    (sineWave rate f a n).getD i 0
      = a * Real.sin (2 * Real.pi * f * (i : ℝ) / (rate : ℝ)) := by
  rw [List.getD_eq_getElem _ _ (by rw [sineWave_length]; exact h)]
  unfold sineWave
  rw [List.getElem_map, List.getElem_range]

theorem round_nonneg (x : ℝ) (hx : 0 ≤ x) : 0 ≤ round x := by
  rw [round_eq]
  exact Int.floor_nonneg.mpr (by linarith)

theorem round_toNat_cast (d : ℝ) (r : ℕ) (hd : 0 ≤ d) :
    (((round (d * (r : ℝ))).toNat : ℤ)) = round (d * (r : ℝ)) :=
  Int.toNat_of_nonneg (round_nonneg _ (mul_nonneg hd (Nat.cast_nonneg r)))

theorem round_one_mul_nat (r : ℕ) : round ((1 : ℝ) * (r : ℝ)) = r := by
  rw [one_mul, round_natCast]

theorem add_sine_wave_ok (t : Track) (f d a : ℝ) (hf : 0 < f) (hd : 0 ≤ d) :
    t.add_sine_wave (.hertz f) d a
      = .ok { t.write t.cue_write
                (sineWave t.sample_rate f a ((round (d * (t.sample_rate : ℝ))).toNat)) with
              cue_write := t.cue_write + (round (d * (t.sample_rate : ℝ))).toNat } := by
  simp only [Track.add_sine_wave, resolveFrequency]
  rw [if_neg (not_le.mpr hf), if_neg (not_lt.mpr hd)]

theorem add_sine_wave_inv (t t' : Track) (p : Pitch) (d a : ℝ)
    (h : t.add_sine_wave p d a = .ok t') :
    ∃ f, resolveFrequency p = .ok f ∧ 0 < f ∧ 0 ≤ d ∧
      t' = { t.write t.cue_write
               (sineWave t.sample_rate f a ((round (d * (t.sample_rate : ℝ))).toNat)) with
             cue_write := t.cue_write + (round (d * (t.sample_rate : ℝ))).toNat } := by
  unfold Track.add_sine_wave at h
  cases hr : resolveFrequency p with
  | error e => rw [hr] at h; exact absurd h (by simp)
  | ok f =>
    rw [hr] at h
    dsimp only at h
    by_cases h1 : f ≤ 0
    · rw [if_pos h1] at h; exact absurd h (by simp)
    · rw [if_neg h1] at h
      by_cases h2 : d < 0
      · rw [if_pos h2] at h; exact absurd h (by simp)
      · rw [if_neg h2] at h
        simp only [Except.ok.injEq] at h
        exact ⟨f, rfl, not_le.mp h1, not_lt.mp h2, h.symm⟩

theorem add_blank_ok (t : Track) (d : ℝ) (hd : 0 ≤ d) :
    t.add_blank d
      = .ok { t.write t.cue_write
                (List.replicate ((round (d * (t.sample_rate : ℝ))).toNat) (0 : ℝ)) with
              cue_write := t.cue_write + (round (d * (t.sample_rate : ℝ))).toNat } := by
  simp only [Track.add_blank]
  rw [if_neg (not_lt.mpr hd)]

theorem add_blank_inv (t t' : Track) (d : ℝ) (h : t.add_blank d = .ok t') :
    0 ≤ d ∧
      t' = { t.write t.cue_write
               (List.replicate ((round (d * (t.sample_rate : ℝ))).toNat) (0 : ℝ)) with
             cue_write := t.cue_write + (round (d * (t.sample_rate : ℝ))).toNat } := by
  unfold Track.add_blank at h
  by_cases h1 : d < 0
  · rw [if_pos h1] at h; exact absurd h (by simp)
  · rw [if_neg h1] at h
    simp only [Except.ok.injEq] at h
    exact ⟨not_lt.mp h1, h.symm⟩

theorem set_cue_write_ok (t : Track) (x : ℝ) (hx : 0 ≤ round (x * (t.sample_rate : ℝ))) :
    t.set_cue_write x
      = .ok { t with cue_write := (round (x * (t.sample_rate : ℝ))).toNat } := by
  unfold Track.set_cue_write
  rw [if_neg (not_lt.mpr hx)]

theorem set_cue_write_inv (t t' : Track) (x : ℝ) (h : t.set_cue_write x = .ok t') :
    0 ≤ round (x * (t.sample_rate : ℝ)) ∧
      t' = { t with cue_write := (round (x * (t.sample_rate : ℝ))).toNat } := by
  unfold Track.set_cue_write at h
  by_cases h1 : round (x * (t.sample_rate : ℝ)) < 0
  · rw [if_pos h1] at h; exact absurd h (by simp)
  · rw [if_neg h1] at h
    simp only [Except.ok.injEq] at h
    exact ⟨not_lt.mp h1, h.symm⟩

theorem set_cue_write_zero (t : Track) :
    t.set_cue_write 0 = .ok { t with cue_write := 0 } := by
  have h : round ((0 : ℝ) * (t.sample_rate : ℝ)) = 0 := by rw [zero_mul, round_zero]
  rw [set_cue_write_ok t 0 (by rw [h]), h]
  rfl

theorem sineWave_rate4 (a : ℝ) : sineWave 4 1 a 4 = [0, a, 0, -a] := by
  have e0 : 2 * Real.pi * 1 * ((0 : ℕ) : ℝ) / ((4 : ℕ) : ℝ) = 0 := by push_cast; ring
  have e1 : 2 * Real.pi * 1 * ((1 : ℕ) : ℝ) / ((4 : ℕ) : ℝ) = Real.pi / 2 := by
    push_cast; ring
  have e2 : 2 * Real.pi * 1 * ((2 : ℕ) : ℝ) / ((4 : ℕ) : ℝ) = Real.pi := by push_cast; ring
  have e3 : 2 * Real.pi * 1 * ((3 : ℕ) : ℝ) / ((4 : ℕ) : ℝ) = Real.pi / 2 + Real.pi := by
    push_cast; ring
  unfold sineWave
  rw [show List.range 4 = [0, 1, 2, 3] from rfl]
  simp only [List.map_cons, List.map_nil]
  rw [e0, e1, e2, e3]
  simp only [Real.sin_zero, Real.sin_pi_div_two, Real.sin_pi, Real.sin_add_pi]
  norm_num

theorem letterSemitone_isSome (c : Char) :
    (letterSemitone c).isSome = (decide ('A' ≤ c) && decide (c ≤ 'G')) := by
  by_cases h : 'A' ≤ c ∧ c ≤ 'G'
  · have h1 : 65 ≤ c.toNat := h.1
    have h2 : c.toNat ≤ 71 := h.2
    have hc : c = Char.ofNat c.toNat := (Char.ofNat_toNat c).symm
    interval_cases hn : c.toNat <;> rw [hc] <;> decide
  · have hnone : letterSemitone c = none := by
      unfold letterSemitone
      split <;> first
        | rfl
        | exact absurd ⟨by decide, by decide⟩ h
    rw [hnone]
    rcases not_and_or.mp h with h' | h' <;> simp [h']

theorem parseDigits_isSome (l : List Char) :
    (parseDigits l).isSome = (!l.isEmpty && l.all Char.isDigit) := by
  induction l with
  | nil => rfl
  | cons c tail ih =>
    cases tail with
    | nil => by_cases hc : c.isDigit <;> simp [parseDigits, hc]
    | cons c2 rest =>
      by_cases hc : c.isDigit
      · simp only [parseDigits, if_pos hc]
        cases hp : parseDigits (c2 :: rest) with
        | none => rw [hp] at ih; simp_all
        | some v => rw [hp] at ih; simp_all
      · simp [parseDigits, hc]

theorem parsePitch_isSome (s : List Char) :
    (parsePitch s).isSome = matchesPitchGrammar s := by
  cases s with
  | nil => rfl
  | cons c rest =>
    simp only [parsePitch, matchesPitchGrammar]
    cases hl : letterSemitone c with
    | none =>
      have hT := letterSemitone_isSome c
      rw [hl] at hT
      dsimp only
      rw [← hT]
      simp
    | some ls =>
      have hT := letterSemitone_isSome c
      rw [hl] at hT
      dsimp only
      rw [← hT, ← parseDigits_isSome]
      generalize (parseDigits
        (if (if rest.head? = some '#' ∨ rest.head? = some 'b' then rest.tail
              else rest).head? = some '-'
          then (if rest.head? = some '#' ∨ rest.head? = some 'b' then rest.tail
              else rest).tail
          else (if rest.head? = some '#' ∨ rest.head? = some 'b' then rest.tail
              else rest))) = o
      cases o <;> rfl

theorem round_le_of_le (y : ℝ) (b : ℤ) (h : y ≤ (b : ℝ)) : round y ≤ b := by
  have h1 := round_le_add_half y
  have h2 : ((round y : ℤ) : ℝ) < (b : ℝ) + 1 := by linarith
  have h3 : round y < b + 1 := by exact_mod_cast h2
  omega

theorem le_round_of_le (y : ℝ) (b : ℤ) (h : (b : ℝ) ≤ y) : b ≤ round y := by
  have h1 := sub_half_lt_round y
  have h2 : ((b : ℤ) : ℝ) - 1 < ((round y : ℤ) : ℝ) := by linarith
  have h3 : b - 1 < round y := by exact_mod_cast h2
  omega

theorem quantize_le (fs : ℕ) (M x : ℝ) : quantize fs M x ≤ (fs : ℤ) := by
  unfold quantize
  have h1 : -((fs : ℤ) + 1) ≤ (fs : ℤ) := by omega
  exact max_le h1 (min_le_left _ _)

theorem neg_le_quantize (fs : ℕ) (M x : ℝ) : -((fs : ℤ) + 1) ≤ quantize fs M x :=
  le_max_left _ _

theorem quantize_eq_round (fs : ℕ) (M x : ℝ) (hM : 0 < M) (hx : |x| ≤ M) :
    quantize fs M x = round (x * (fs : ℝ) / M) := by
  have hfsR : (0 : ℝ) ≤ (fs : ℝ) := Nat.cast_nonneg fs
  have h1 : x * (fs : ℝ) / M ≤ (fs : ℝ) := by
    rw [div_le_iff₀ hM]
    have hxM : x ≤ M := le_of_abs_le hx
    nlinarith
  have h2 : -(fs : ℝ) ≤ x * (fs : ℝ) / M := by
    rw [le_div_iff₀ hM]
    have hxM : -M ≤ x := neg_le_of_abs_le hx
    nlinarith
  have hub : round (x * (fs : ℝ) / M) ≤ (fs : ℤ) := round_le_of_le _ _ (by exact_mod_cast h1)
  have hlb : -(fs : ℤ) ≤ round (x * (fs : ℝ) / M) := by
    refine le_round_of_le _ _ ?_
    push_cast
    linarith
  unfold quantize
  rw [min_eq_right hub, max_eq_right (by omega)]

theorem quantize_sat_top (fs : ℕ) (M x : ℝ) (hM : 0 < M) (hx : M ≤ x) :
    quantize fs M x = (fs : ℤ) := by
  have hfsR : (0 : ℝ) ≤ (fs : ℝ) := Nat.cast_nonneg fs
  have h1 : (fs : ℝ) ≤ x * (fs : ℝ) / M := by
    rw [le_div_iff₀ hM]
    nlinarith
  have hge : (fs : ℤ) ≤ round (x * (fs : ℝ) / M) := le_round_of_le _ _ (by exact_mod_cast h1)
  unfold quantize
  rw [min_eq_left hge, max_eq_right (by omega)]

/-- Claim C10: `sample_rate` and `max_amplitude` are fixed at construction and
preserved unchanged by every subsequent operation (`write`, `ensure_length`,
`add_sine_wave`, `add_blank`, `set_cue_write`, export, render); the
construction defaults are `sample_rate = 44100` and `max_amplitude = 1`, and
the aliases resolve to `"int16" -> 32767` and `"int32" -> 2147483647`, a
numeric value being used as-is. -/
theorem claim_C10_invariants :
    (Track.new).sample_rate = 44100
    ∧ (Track.new).max_amplitude = 1
    ∧ resolveMaxAmplitude .int16 = 32767
    ∧ resolveMaxAmplitude .int32 = 2147483647
    ∧ (∀ x : ℝ, resolveMaxAmplitude (.value x) = x)
    ∧ (∀ (t : Track) (o : ℕ) (vs : List ℝ),
        (t.write o vs).sample_rate = t.sample_rate
          ∧ (t.write o vs).max_amplitude = t.max_amplitude)
    ∧ (∀ (t : Track) (n : ℕ),
        (t.ensure_length n).sample_rate = t.sample_rate
          ∧ (t.ensure_length n).max_amplitude = t.max_amplitude)
    ∧ (∀ (t t' : Track) (p : Pitch) (d a : ℝ), t.add_sine_wave p d a = .ok t' →
        t'.sample_rate = t.sample_rate ∧ t'.max_amplitude = t.max_amplitude)
    ∧ (∀ (t t' : Track) (d : ℝ), t.add_blank d = .ok t' →
        t'.sample_rate = t.sample_rate ∧ t'.max_amplitude = t.max_amplitude)
    ∧ (∀ (t t' : Track) (x : ℝ), t.set_cue_write x = .ok t' →
        t'.sample_rate = t.sample_rate ∧ t'.max_amplitude = t.max_amplitude)
    ∧ (∀ (t : Track) (fs : ℕ),
        (t.exportData fs).1 = t.sample_rate ∧ (t.render fs).1 = t.sample_rate) := by
  refine ⟨rfl, rfl, rfl, rfl, fun x => rfl, fun t o vs => ⟨rfl, rfl⟩, fun t n => ⟨rfl, rfl⟩,
    ?_, ?_, ?_, fun t fs => ⟨rfl, rfl⟩⟩
  · intro t t' p d a h
    obtain ⟨f, _, _, _, ht⟩ := add_sine_wave_inv t t' p d a h
    subst ht
    exact ⟨rfl, rfl⟩
  · intro t t' d h
    obtain ⟨_, ht⟩ := add_blank_inv t t' d h
    subst ht
    exact ⟨rfl, rfl⟩
  · intro t t' x h
    obtain ⟨_, ht⟩ := set_cue_write_inv t t' x h
    subst ht
    exact ⟨rfl, rfl⟩

theorem claim_C10_invariants_witness :
    ({ Track.new 4 with cue_write := 0 } : Track).sample_rate = (Track.new 4).sample_rate
      ∧ ({ Track.new 4 with cue_write := 0 } : Track).max_amplitude
          = (Track.new 4).max_amplitude :=
  claim_C10_invariants.2.2.2.2.2.2.2.2.2.1 (Track.new 4) _ 0 (set_cue_write_zero _)

/-- Claim C4: quantization (used by export and playback) maps every sample `x`
to `round(x * full_scale / max_amplitude)` saturated to the representable
signed-integer range: overflow never wraps nor aliases to the opposite sign,
saturation raises no error (`quantize` is total), and a sample of amplitude
`2 * max_amplitude` quantizes to the maximum representable integer. -/
theorem claim_C4_quantization (fs : ℕ) (M x : ℝ) (hM : 0 < M) :
    -((fs : ℤ) + 1) ≤ quantize fs M x
    ∧ quantize fs M x ≤ (fs : ℤ)
    ∧ (|x| ≤ M → quantize fs M x = round (x * (fs : ℝ) / M))
    ∧ (M ≤ x → quantize fs M x = (fs : ℤ))
    ∧ (0 ≤ x → 0 ≤ quantize fs M x)
    ∧ quantize fs M (2 * M) = (fs : ℤ) := by
  refine ⟨neg_le_quantize fs M x, quantize_le fs M x,
    fun hx => quantize_eq_round fs M x hM hx,
    fun hx => quantize_sat_top fs M x hM hx, ?_,
    quantize_sat_top fs M (2 * M) hM (by linarith)⟩
  intro hx
  have h0 : (0 : ℝ) ≤ x * (fs : ℝ) / M :=
    div_nonneg (mul_nonneg hx (Nat.cast_nonneg fs)) hM.le
  have h1 : 0 ≤ round (x * (fs : ℝ) / M) := round_nonneg _ h0
  unfold quantize
  have h2 : (0 : ℤ) ≤ min (fs : ℤ) (round (x * (fs : ℝ) / M)) :=
    le_min (by omega) h1
  omega

theorem claim_C4_quantization_witness :
    (0 : ℝ) < 1 ∧ quantize 32767 1 (2 * 1) = (32767 : ℤ) :=
  ⟨by norm_num, by
    have h := claim_C4_quantization 32767 1 2 (by norm_num)
    have h2 := h.2.2.2.1 (by norm_num)
    simpa using h2⟩

theorem addAt_zero_eq_zipWith (xs vs : List ℝ) (h : xs.length = vs.length) :
    addAt xs 0 vs = List.zipWith (fun x v => x + v) xs vs := by
  induction xs generalizing vs with
  | nil =>
    cases vs with
    | nil => rfl
    | cons v vs => simp at h
  | cons x xs ih =>
    cases vs with
    | nil => simp at h
    | cons v vs =>
      simp only [List.length_cons, Nat.add_right_cancel_iff] at h
      simp [addAt, ih vs h]

theorem addAt_zero_replicate (vs : List ℝ) :
    addAt (List.replicate vs.length (0 : ℝ)) 0 vs = vs := by
  rw [addAt_zero_eq_zipWith _ _ (by simp)]
  induction vs with
  | nil => rfl
  | cons v vs ih => simpa [List.replicate_succ] using ih

theorem write_fresh (t : Track) (vs : List ℝ) (hs : t.samples = []) :
    (t.write 0 vs).samples = vs := by
  unfold Track.write Track.ensure_length
  simp only [hs]
  simpa using addAt_zero_replicate vs

theorem sineWave_cancel (r : ℕ) (f a : ℝ) (n : ℕ) :
    addAt (sineWave r f a n) 0 (sineWave r f (-a) n) = List.replicate n (0 : ℝ) := by
  rw [addAt_zero_eq_zipWith _ _ (by simp)]
  unfold sineWave
  rw [List.zipWith_map (fun x v : ℝ => x + v) _ _ (List.range n) (List.range n),
    List.zipWith_same]
  trans List.map (fun _ : ℕ => (0 : ℝ)) (List.range n)
  · exact List.map_congr_left fun i _ => by ring
  · simp

/-- Claim C6: the Note Resolver is a pure, deterministic function mapping
every pitch string matching the grammar to `440 * 2^((n - 69)/12)` Hz, where
`n` is the MIDI-style semitone number derived from letter, accidental and
octave; in particular "A4" resolves to exactly 440 Hz, "A5" to exactly 880 Hz,
and "D4" differs from "C4" by the exact ratio `2^(2/12)`. -/
theorem claim_C6_note_resolver :
    (∀ (s : String) (n : ℤ), parsePitch s.toList = some n →
        resolvePitch s = .ok (440 * (2 : ℝ) ^ (((n : ℝ) - 69) / 12)))
    ∧ (∀ s : String,
        matchesPitchGrammar s.toList = true ↔ (parsePitch s.toList).isSome = true)
    ∧ resolvePitch ("A4") = .ok 440
    ∧ resolvePitch ("A5") = .ok 880
    ∧ (resolvePitch ("C4")).map (fun x => x * (2 : ℝ) ^ ((2 : ℝ) / 12))
        = resolvePitch ("D4") := by
  refine ⟨?_, ?_, ?_, ?_, ?_⟩
  · intro s n h
    unfold resolvePitch
    rw [h]
    rfl
  · intro s
    rw [parsePitch_isSome]
  · unfold resolvePitch
    rw [show parsePitch (("A4").toList) = some 69 from by decide]
    unfold midiFrequency
    norm_num
  · unfold resolvePitch
    rw [show parsePitch (("A5").toList) = some 81 from by decide]
    unfold midiFrequency
    norm_num
  · unfold resolvePitch
    rw [show parsePitch (("C4").toList) = some 60 from by decide,
      show parsePitch (("D4").toList) = some 62 from by decide]
    unfold midiFrequency
    simp only [Except.map]
    rw [mul_assoc, ← Real.rpow_add (by norm_num : (0 : ℝ) < 2)]
    norm_num

theorem claim_C6_note_resolver_witness :
    parsePitch (("F#4").toList) = some 66
      ∧ resolvePitch ("F#4") = .ok (440 * (2 : ℝ) ^ ((((66 : ℤ) : ℝ) - 69) / 12)) :=
  ⟨by decide, claim_C6_note_resolver.1 ("F#4") 66 (by decide)⟩

theorem replicate_getD (n j : ℕ) : (List.replicate n (0 : ℝ)).getD j 0 = 0 := by
  simp [List.getD]

/-- Claim C7: for every d ≥ 0, add_blank(d) succeeds, advances `cue_write` by
`round(d * sample_rate)`, extends the buffer with zeros only where the covered
region lies beyond the current length, and leaves every existing sample value
unchanged — a blank over existing audio is a pure cursor advance. -/
theorem claim_C7_add_blank (t : Track) (d : ℝ) (hd : 0 ≤ d) :
    (t.add_blank d).map Track.cue_write
        = .ok (t.cue_write + (round (d * (t.sample_rate : ℝ))).toNat)
    ∧ (t.add_blank d).map (fun u => u.samples.length)
        = .ok (max t.samples.length
            (t.cue_write + (round (d * (t.sample_rate : ℝ))).toNat))
    ∧ (∀ i, (t.add_blank d).map (fun u => u.samples.getD i 0)
        = .ok (t.samples.getD i 0))
    ∧ (∀ i, t.samples.length ≤ i →
        (t.add_blank d).map (fun u => u.samples.getD i 0) = .ok 0) := by
  rw [add_blank_ok t d hd]
  refine ⟨rfl, ?_, ?_, ?_⟩
  · simp [Except.map]
  · intro i
    simp only [Except.map]
    rw [write_samples_getD]
    simp [replicate_getD]
  · intro i hi
    simp only [Except.map]
    rw [write_samples_getD, List.getD_eq_default _ _ hi]
    simp [replicate_getD]

theorem claim_C7_add_blank_witness :
    ((Track.new 4).add_blank 1).map Track.cue_write
      = .ok (0 + (round ((1 : ℝ) * ((4 : ℕ) : ℝ))).toNat) :=
  (claim_C7_add_blank (Track.new 4) 1 (by norm_num)).1

theorem add_sine_wave_max_amplitude_congr (t : Track) (M' : ℝ) (p : Pitch) (d a : ℝ) :
    ({ t with max_amplitude := M' } : Track).add_sine_wave p d a
      = (t.add_sine_wave p d a).map (fun u => { u with max_amplitude := M' }) := by
  unfold Track.add_sine_wave
  cases resolveFrequency p with
  | error e => rfl
  | ok f =>
    dsimp only
    by_cases h1 : f ≤ 0
    · rw [if_pos h1, if_pos h1]; rfl
    · rw [if_neg h1, if_neg h1]
      by_cases h2 : d < 0
      · rw [if_pos h2, if_pos h2]; rfl
      · rw [if_neg h2, if_neg h2]; rfl

/-- Claim C2: the amplitude argument of `add_sine_wave` is an absolute sample
value, not a fraction of `max_amplitude`: the generated samples equal
`amplitude * sin(2π f t)` independently of the track's `max_amplitude`;
reaching a quarter of full scale on a track constructed with
`max_amplitude = "int16"` requires `amplitude = 32767/4`; and `max_amplitude`
enters only the quantization applied at export/render time. -/
theorem claim_C2_amplitude_absolute (t : Track) (M' : ℝ) (p : Pitch) (d a : ℝ)
    (rate n i : ℕ) (f : ℝ) (hi : i < n) (fs : ℕ) :
    (sineWave rate f a n).getD i 0
        = a * Real.sin (2 * Real.pi * f * (i : ℝ) / (rate : ℝ))
    ∧ ({ t with max_amplitude := M' } : Track).add_sine_wave p d a
        = (t.add_sine_wave p d a).map (fun u => { u with max_amplitude := M' })
    ∧ ((Track.new 4 .int16).add_sine_wave (.hertz 1) 1 (32767 / 4)).map Track.samples
        = .ok [0, 32767 / 4, 0, -(32767 / 4)]
    ∧ resolveMaxAmplitude .int16 / 4 = (32767 : ℝ) / 4
    ∧ t.render fs = (t.sample_rate, t.samples.map (quantize fs t.max_amplitude))
    ∧ t.exportData fs = (t.sample_rate, t.samples.map (quantize fs t.max_amplitude)) := by
  refine ⟨sineWave_getD rate f a n i hi, add_sine_wave_max_amplitude_congr t M' p d a,
    ?_, rfl, rfl, rfl⟩
  rw [add_sine_wave_ok _ _ _ _ (by norm_num) (by norm_num)]
  simp only [Except.map,
    show (Track.new 4 .int16).sample_rate = 4 from rfl,
    show (Track.new 4 .int16).cue_write = 0 from rfl,
    round_one_mul_nat, Int.toNat_ofNat]
  rw [write_fresh _ _ rfl, sineWave_rate4]

theorem claim_C2_amplitude_absolute_witness :
    (sineWave 4 1 1 4).getD 1 0
      = 1 * Real.sin (2 * Real.pi * 1 * ((1 : ℕ) : ℝ) / ((4 : ℕ) : ℝ)) :=
  (claim_C2_amplitude_absolute (Track.new 4) 2 (.hertz 1) 1 1 4 4 1 1 (by norm_num) 1).1

theorem toNat_round_one_mul (r : ℕ) : (round ((1 : ℝ) * (r : ℝ))).toNat = r := by
  rw [round_one_mul_nat, Int.toNat_ofNat]

/-- Claim C1 (amended): for every valid call, `add_sine_wave` resolves a
numeric pitch as-is (a note name through the Note Resolver), generates exactly
`round(duration * sample_rate)` samples whose i-th value is
`amplitude * sin(2π f i / sample_rate)` — phase starting at 0 at the start of
the generated segment, independently of `cue_write` — mixes them into the
buffer at `cue_write`, advances `cue_write` by the generated length, and
returns the Track; `Track(sample_rate=8000).add_sine_wave(440, 1, 1)` yields
exactly 8000 samples, first sample exactly 0, and the sample at the
nearest-integer quarter-period index `round(8000/440/4) = 5` within `1/50` of
`max_amplitude = 1`.  (The original claim's extra `max_amplitude` factor in
the sample formula is refuted by the counterexample.) -/
theorem claim_C1_add_sine_wave (t : Track) (f d a : ℝ) (hf : 0 < f) (hd : 0 ≤ d) :
    (t.add_sine_wave (.hertz f) d a).map Track.cue_write
        = .ok (t.cue_write + (round (d * (t.sample_rate : ℝ))).toNat)
    ∧ (t.add_sine_wave (.hertz f) d a).map (fun u => u.samples.length)
        = .ok (max t.samples.length
            (t.cue_write + (round (d * (t.sample_rate : ℝ))).toNat))
    ∧ (∀ i, i < (round (d * (t.sample_rate : ℝ))).toNat →
        (t.add_sine_wave (.hertz f) d a).map (fun u => u.samples.getD (t.cue_write + i) 0)
          = .ok (t.samples.getD (t.cue_write + i) 0
              + a * Real.sin (2 * Real.pi * f * (i : ℝ) / (t.sample_rate : ℝ))))
    ∧ (sineWave t.sample_rate f a ((round (d * (t.sample_rate : ℝ))).toNat)).length
        = (round (d * (t.sample_rate : ℝ))).toNat
    ∧ resolveFrequency (.hertz f) = .ok f
    ∧ (∀ s : String, resolveFrequency (.name s) = resolvePitch s)
    ∧ ((Track.new 8000).add_sine_wave (.hertz 440) 1 1).map (fun u => u.samples.length)
        = .ok 8000
    ∧ ((Track.new 8000).add_sine_wave (.hertz 440) 1 1).map (fun u => u.samples.getD 0 0)
        = .ok 0
    ∧ ((Track.new 8000).add_sine_wave (.hertz 440) 1 1).map (fun u => u.samples.getD 5 0)
        = .ok (Real.sin (2 * Real.pi * 440 * 5 / 8000))
    ∧ |Real.sin (2 * Real.pi * 440 * 5 / 8000) - 1| < 1 / 50 := by
  have hok := add_sine_wave_ok t f d a hf hd
  have hok8 := add_sine_wave_ok (Track.new 8000) 440 1 1 (by norm_num) (by norm_num)
  have h8 : ((round ((1 : ℝ) * ((Track.new 8000).sample_rate : ℝ))).toNat) = 8000 := by
    rw [show (Track.new 8000).sample_rate = 8000 from rfl, toNat_round_one_mul]
  rw [h8] at hok8
  have hw8 : (((Track.new 8000).write (Track.new 8000).cue_write
      (sineWave (Track.new 8000).sample_rate 440 1 8000))).samples
        = sineWave 8000 440 1 8000 := by
    rw [show (Track.new 8000).cue_write = 0 from rfl]
    exact write_fresh _ _ rfl
  refine ⟨?_, ?_, ?_, sineWave_length _ _ _ _, rfl, fun s => rfl, ?_, ?_, ?_, ?_⟩
  · rw [hok]; rfl
  · rw [hok]
    simp [Except.map]
  · intro i hi
    rw [hok]
    simp only [Except.map]
    rw [write_samples_getD]
    rw [if_pos ⟨Nat.le_add_right _ _, by simpa [Nat.add_sub_cancel_left] using hi⟩,
      Nat.add_sub_cancel_left, sineWave_getD _ _ _ _ _ hi]
  · rw [hok8]
    simp only [Except.map]
    rw [show ((Track.new 8000).write (Track.new 8000).cue_write
        (sineWave (Track.new 8000).sample_rate 440 1 8000)).samples.length
      = max (Track.new 8000).samples.length ((Track.new 8000).cue_write + 8000) from by
        rw [write_samples_length]; rw [sineWave_length]]
    rfl
  · rw [hok8]
    simp only [Except.map]
    rw [hw8, sineWave_getD _ _ _ _ _ (by norm_num)]
    norm_num
  · rw [hok8]
    simp only [Except.map]
    rw [hw8, sineWave_getD _ _ _ _ _ (by norm_num)]
    norm_num
  · have harg : (2 * Real.pi * 440 * 5 / 8000 : ℝ) = Real.pi / 20 + Real.pi / 2 := by
      ring
    rw [harg, Real.sin_add_pi_div_two]
    have hc1 : Real.cos (Real.pi / 20) ≤ 1 := Real.cos_le_one _
    have hne : (Real.pi / 20 : ℝ) ≠ 0 := by positivity
    have hlb := Real.one_sub_sq_div_two_lt_cos hne
    have hπ : Real.pi < 3.15 := Real.pi_lt_d2
    have hπ0 : 0 < Real.pi := Real.pi_pos
    have hsq : (Real.pi / 20 : ℝ) ^ 2 / 2 < 1 / 50 := by nlinarith
    rw [abs_sub_comm, abs_of_nonneg (by linarith)]
    linarith

theorem claim_C1_add_sine_wave_witness :
    ((Track.new 4).add_sine_wave (.hertz 1) 1 1).map Track.cue_write
      = .ok (0 + (round ((1 : ℝ) * ((4 : ℕ) : ℝ))).toNat) :=
  (claim_C1_add_sine_wave (Track.new 4) 1 1 1 (by norm_num) (by norm_num)).1

/-- Claim C1 counterexample: on `Track(sample_rate=4, max_amplitude=2)`,
`add_sine_wave(1, 1, 1)` produces samples `[0, 1, 0, -1]` — the value at the
quarter-period index 1 is `1 = amplitude * sin(π/2)`, not
`amplitude * max_amplitude * sin(π/2) = 2` as the claim's formula requires. -/
theorem claim_C1_counterexample :
    ((Track.new 4 (.value 2)).add_sine_wave (.hertz 1) 1 1).map Track.samples
        = .ok [0, 1, 0, -1]
    ∧ ¬((1 : ℝ) = 1 * (Track.new 4 (.value 2)).max_amplitude
          * Real.sin (2 * Real.pi * 1 * ((1 : ℕ) : ℝ)
              / (((Track.new 4 (.value 2)).sample_rate : ℕ) : ℝ))) := by
  constructor
  · rw [add_sine_wave_ok _ _ _ _ (by norm_num) (by norm_num)]
    simp only [Except.map,
      show (Track.new 4 (.value 2)).sample_rate = 4 from rfl,
      show (Track.new 4 (.value 2)).cue_write = 0 from rfl,
      round_one_mul_nat, Int.toNat_ofNat]
    rw [write_fresh _ _ rfl, sineWave_rate4]
  · rw [show (Track.new 4 (.value 2)).max_amplitude = 2 from rfl,
      show ((((Track.new 4 (.value 2)).sample_rate : ℕ)) : ℝ) = 4 from by norm_num [Track.new],
      show (2 * Real.pi * 1 * (((1 : ℕ)) : ℝ) / 4 : ℝ) = Real.pi / 2 from by push_cast; ring,
      Real.sin_pi_div_two]
    norm_num

theorem write_zero_full (t : Track) (vs : List ℝ) (h : t.samples.length = vs.length) :
    (t.write 0 vs).samples = addAt t.samples 0 vs := by
  unfold Track.write Track.ensure_length
  simp [h]

theorem overlay_cancel (r : ℕ) (f d a : ℝ) (hf : 0 < f) (hd : 0 ≤ d) :
    (((Track.new r).add_sine_wave (.hertz f) d a).bind fun t1 =>
        (t1.set_cue_write 0).bind fun t2 =>
          t2.add_sine_wave (.hertz f) d (-a)).map Track.samples
      = .ok (List.replicate ((round (d * (r : ℝ))).toNat) (0 : ℝ)) := by
  have h1 : (Track.new r).add_sine_wave (.hertz f) d a
      = .ok ⟨r, 1, sineWave r f a ((round (d * (r : ℝ))).toNat),
          (round (d * (r : ℝ))).toNat⟩ := by
    rw [add_sine_wave_ok _ _ _ _ hf hd]
    simp only [show (Track.new r).sample_rate = r from rfl,
      show (Track.new r).cue_write = 0 from rfl]
    congr 1
    ext : 1
    · rfl
    · rfl
    · exact write_fresh _ _ rfl
    · exact Nat.zero_add _
  have h3 : (⟨r, 1, sineWave r f a ((round (d * (r : ℝ))).toNat), 0⟩ : Track).add_sine_wave
        (.hertz f) d (-a)
      = .ok ⟨r, 1, List.replicate ((round (d * (r : ℝ))).toNat) (0 : ℝ),
          (round (d * (r : ℝ))).toNat⟩ := by
    rw [add_sine_wave_ok _ _ _ _ hf hd]
    congr 1
    ext : 1
    · rfl
    · rfl
    · show ((⟨r, 1, sineWave r f a ((round (d * (r : ℝ))).toNat), 0⟩ : Track).write 0
          (sineWave r f (-a) ((round (d * (r : ℝ))).toNat))).samples = _
      rw [write_zero_full _ _ (by simp)]
      exact sineWave_cancel r f a _
    · exact Nat.zero_add _
  rw [h1]
  simp only [Except.bind]
  rw [set_cue_write_zero]
  simp only [Except.bind]
  rw [h3]
  rfl

/-- Claim C3: `write(offset, values)` is additive and frame-preserving: it
ensures length `offset + len(values)`, adds `values[i]` into
`samples[offset+i]`, and leaves every index outside the written region
unchanged; consequently overlapped writes superpose arithmetically, and two
sine waves of equal frequency and opposite phase written over the same region
sum to 0 everywhere. -/
theorem claim_C3_write_additive (t : Track) (o : ℕ) (vs : List ℝ) (r : ℕ) (f d a : ℝ)
    (hf : 0 < f) (hd : 0 ≤ d) :
    (t.write o vs).samples.length = max t.samples.length (o + vs.length)
    ∧ (∀ i, i < vs.length →
        (t.write o vs).samples.getD (o + i) 0
          = t.samples.getD (o + i) 0 + vs.getD i 0)
    ∧ (∀ j, j < o ∨ o + vs.length ≤ j →
        (t.write o vs).samples.getD j 0 = t.samples.getD j 0)
    ∧ (((Track.new r).add_sine_wave (.hertz f) d a).bind fun t1 =>
          (t1.set_cue_write 0).bind fun t2 =>
            t2.add_sine_wave (.hertz f) d (-a)).map Track.samples
        = .ok (List.replicate ((round (d * (r : ℝ))).toNat) (0 : ℝ)) := by
  refine ⟨write_samples_length t o vs, ?_, ?_, overlay_cancel r f d a hf hd⟩
  · intro i hi
    rw [write_samples_getD,
      if_pos ⟨Nat.le_add_right _ _, by simpa [Nat.add_sub_cancel_left] using hi⟩,
      Nat.add_sub_cancel_left]
  · intro j hj
    rw [write_samples_getD, if_neg (by omega)]
    exact add_zero _

theorem claim_C3_write_additive_witness :
    (((Track.new 4).add_sine_wave (.hertz 1) 1 1).bind fun t1 =>
        (t1.set_cue_write 0).bind fun t2 =>
          t2.add_sine_wave (.hertz 1) 1 (-1)).map Track.samples
      = .ok (List.replicate ((round ((1 : ℝ) * ((4 : ℕ) : ℝ))).toNat) (0 : ℝ)) :=
  (claim_C3_write_additive (Track.new 4) 0 [] 4 1 1 1 (by norm_num) (by norm_num)).2.2.2

theorem add_sine_wave_hertz_eq (t : Track) (f d a : ℝ) :
    t.add_sine_wave (.hertz f) d a
      = if f ≤ 0 then .error .invalidParameter
        else if d < 0 then .error .invalidParameter
        else .ok { t.write t.cue_write
              (sineWave t.sample_rate f a ((round (d * (t.sample_rate : ℝ))).toNat)) with
            cue_write := t.cue_write + (round (d * (t.sample_rate : ℝ))).toNat } := rfl

/-- Claim C8: `add_sine_wave` and `add_blank` fail with `InvalidParameter`
exactly when the duration is negative or, for `add_sine_wave`, the frequency
is non-positive; `set_cue_write` fails with `InvalidParameter` exactly on a
negative cue index; a zero duration is a no-op write of length 0 leaving the
cursor and every sample value unchanged; an amplitude exceeding
`max_amplitude` is permitted (no check at all); a pitch string outside the
grammar `[A-G][#b]?-?\d+` fails with `InvalidPitchName`.  Errors are values
returned synchronously by the offending call; nothing is retried. -/
theorem claim_C8_errors (t : Track) (f d a x : ℝ) (s : String) :
    (t.add_sine_wave (.hertz f) d a = .error .invalidParameter ↔ f ≤ 0 ∨ d < 0)
    ∧ (t.add_blank d = .error .invalidParameter ↔ d < 0)
    ∧ (t.set_cue_write x = .error .invalidParameter
        ↔ round (x * (t.sample_rate : ℝ)) < 0)
    ∧ (0 < f → (t.add_sine_wave (.hertz f) 0 a).map Track.cue_write = .ok t.cue_write)
    ∧ (0 < f → ∀ i, (t.add_sine_wave (.hertz f) 0 a).map (fun u => u.samples.getD i 0)
        = .ok (t.samples.getD i 0))
    ∧ (0 < f → 0 ≤ d → (t.add_sine_wave (.hertz f) d a).toOption.isSome = true)
    ∧ (resolvePitch s = .error .invalidPitchName ↔ matchesPitchGrammar s.toList = false)
    ∧ (matchesPitchGrammar s.toList = false →
        t.add_sine_wave (.name s) d a = .error .invalidPitchName) := by
  refine ⟨?_, ?_, ?_, ?_, ?_, ?_, ?_, ?_⟩
  · rw [add_sine_wave_hertz_eq]
    split_ifs with h1 h2
    · simp [h1]
    · simp [h2]
    · simp [h1, h2]
  · unfold Track.add_blank
    split_ifs with h1 <;> simp [h1]
  · unfold Track.set_cue_write
    split_ifs with h1 <;> simp [h1]
  · intro hf0
    rw [add_sine_wave_ok t f 0 a hf0 le_rfl]
    simp [Except.map]
  · intro hf0 i
    rw [add_sine_wave_ok t f 0 a hf0 le_rfl]
    simp only [Except.map]
    rw [write_samples_getD]
    simp
  · intro hf0 hd0
    rw [add_sine_wave_ok t f d a hf0 hd0]
    rfl
  · have h0 := parsePitch_isSome s.toList
    unfold resolvePitch
    cases hp : parsePitch s.toList with
    | none =>
      rw [hp] at h0
      simp at h0
      simp [← h0]
    | some n =>
      rw [hp] at h0
      simp at h0
      simp [← h0]
  · intro hm
    have h0 := parsePitch_isSome s.toList
    rw [hm] at h0
    cases hp : parsePitch s.toList with
    | some n => rw [hp] at h0; simp at h0
    | none =>
      unfold Track.add_sine_wave resolveFrequency resolvePitch
      dsimp only
      rw [hp]

theorem claim_C8_errors_witness :
    (Track.new 4).add_blank (-1) = .error .invalidParameter :=
  ((claim_C8_errors (Track.new 4) 1 (-1) 1 0 ("A4")).2.1).mpr (by norm_num)

theorem foldr_max_init (L : List ℕ) (b c : ℕ) :
    L.foldr max (max b c) = max c (L.foldr max b) := by
  induction L with
  | nil => simp [Nat.max_comm]
  | cons y ys ih =>
    simp only [List.foldr_cons, ih]
    rw [Nat.max_left_comm]

theorem runOps_length (t t' : Track) (ops : List TrackOp)
    (h : runOps t ops = .ok t') :
    t'.samples.length
      = ((extents t ops).map (fun p => p.1 + p.2)).foldr max t.samples.length := by
  induction ops generalizing t with
  | nil =>
    unfold runOps at h
    simp only [Except.ok.injEq] at h
    subst h
    unfold extents
    simp
  | cons op rest ih =>
    unfold runOps at h
    cases happ : applyOp t op with
    | error e => rw [happ] at h; simp [Except.bind] at h
    | ok t2 =>
      rw [happ] at h
      simp only [Except.bind] at h
      have ihr := ih t2 h
      unfold extents
      rw [happ]
      dsimp only
      cases op with
      | sine p d a =>
        unfold applyOp at happ
        obtain ⟨f, _, _, _, ht⟩ := add_sine_wave_inv t t2 p d a happ
        have hlen : t2.samples.length
            = max t.samples.length
                (t.cue_write + (round (d * (t.sample_rate : ℝ))).toNat) := by
          rw [ht]
          simp [write_samples_length, sineWave_length]
        unfold opLen
        simp only [List.singleton_append, List.map_cons, List.foldr_cons]
        rw [ihr, hlen, foldr_max_init]
      | blank d =>
        unfold applyOp at happ
        obtain ⟨_, ht⟩ := add_blank_inv t t2 d happ
        have hlen : t2.samples.length
            = max t.samples.length
                (t.cue_write + (round (d * (t.sample_rate : ℝ))).toNat) := by
          rw [ht]
          simp [write_samples_length]
        unfold opLen
        simp only [List.singleton_append, List.map_cons, List.foldr_cons]
        rw [ihr, hlen, foldr_max_init]
      | setCue x =>
        unfold applyOp at happ
        obtain ⟨_, ht⟩ := set_cue_write_inv t t2 x happ
        have hlen : t2.samples.length = t.samples.length := by rw [ht]
        unfold opLen
        simp only [List.nil_append]
        rw [ihr, hlen]

/-- Claim C9: after any sequence of `add_sine_wave`/`add_blank`/`set_cue_write`
calls on a fresh Track, the buffer length equals the maximum over all
performed writes of `offset + length` of that write (in particular for
non-overlapping writes), and `ensure_length(n)` makes index `n-1` addressable
while zero-filling every newly created position and preserving existing
values. -/
theorem claim_C9_buffer_length (r : ℕ) (ops : List TrackOp) (t' : Track)
    (h : runOps (Track.new r) ops = .ok t') :
    t'.samples.length
      = ((extents (Track.new r) ops).map (fun p => p.1 + p.2)).foldr max 0
    ∧ (∀ (u : Track) (n : ℕ),
        n ≤ (u.ensure_length n).samples.length
        ∧ (u.ensure_length n).samples.length = max u.samples.length n
        ∧ (∀ i, (u.ensure_length n).samples.getD i 0 = u.samples.getD i 0)
        ∧ (∀ i, u.samples.length ≤ i → (u.ensure_length n).samples.getD i 0 = 0)) := by
  constructor
  · have hr := runOps_length (Track.new r) t' ops h
    simpa using hr
  · intro u n
    refine ⟨?_, ensure_length_samples_length u n,
      fun i => ensure_length_samples_getD u n i, ?_⟩
    · rw [ensure_length_samples_length]
      exact le_max_right _ _
    · intro i hi
      rw [ensure_length_samples_getD, List.getD_eq_default _ _ hi]

theorem claim_C9_buffer_length_witness :
    (⟨4, 1, List.replicate 4 (0 : ℝ), 4⟩ : Track).samples.length
      = ((extents (Track.new 4) [TrackOp.blank 1]).map (fun p => p.1 + p.2)).foldr max 0 := by
  have hb : (Track.new 4).add_blank 1
      = .ok (⟨4, 1, List.replicate 4 (0 : ℝ), 4⟩ : Track) := by
    rw [add_blank_ok _ _ (by norm_num)]
    simp only [show (Track.new 4).sample_rate = 4 from rfl,
      show (Track.new 4).cue_write = 0 from rfl, toNat_round_one_mul]
    congr 1
    ext : 1
    · rfl
    · rfl
    · exact write_fresh _ _ rfl
    · rfl
  have hrun : runOps (Track.new 4) [TrackOp.blank 1]
      = .ok (⟨4, 1, List.replicate 4 (0 : ℝ), 4⟩ : Track) := by
    unfold runOps applyOp
    dsimp only
    rw [hb]
    rfl
  exact (claim_C9_buffer_length 4 [TrackOp.blank 1] _ hrun).1

theorem quantize_div_close (fs : ℕ) (M x : ℝ) (hfs : 0 < fs) (hM : 0 < M)
    (hx : |x| ≤ M) :
    |((quantize fs M x : ℤ) : ℝ) / (fs : ℝ) - x / M| ≤ 1 / (fs : ℝ) := by
  rw [quantize_eq_round fs M x hM hx]
  have hfsR : (0 : ℝ) < (fs : ℝ) := by exact_mod_cast hfs
  have h1 : |((round (x * (fs : ℝ) / M) : ℤ) : ℝ) - x * (fs : ℝ) / M| ≤ 1 / 2 := by
    have h := abs_sub_round (x * (fs : ℝ) / M)
    rwa [abs_sub_comm] at h
  have h2 : ((round (x * (fs : ℝ) / M) : ℤ) : ℝ) / (fs : ℝ) - x / M
      = (((round (x * (fs : ℝ) / M) : ℤ) : ℝ) - x * (fs : ℝ) / M) / (fs : ℝ) := by
    field_simp
    ring
  rw [h2, abs_div, abs_of_pos hfsR]
  have habs : |((round (x * (fs : ℝ) / M) : ℤ) : ℝ) - x * (fs : ℝ) / M| ≤ 1 := by
    linarith
  gcongr

/-- Claim C5 (amended): for every full scale and every Track whose samples all
lie within `max_amplitude`, export followed by load preserves the sample rate
and the sample count, returns a Track whose `cue_write` sits at the end of the
loaded audio (so a subsequent write appends), and reproduces each original
sample value divided by `max_amplitude` to within one quantization step
`1/full_scale`.  (The original claim's "reproduces the original sample
values" without the normalization and the in-range hypothesis is refuted by
the counterexample.) -/
theorem claim_C5_roundtrip (fs : ℕ) (t : Track) (hfs : 0 < fs)
    (hM : 0 < t.max_amplitude)
    (hin : ∀ i, i < t.samples.length → |t.samples.getD i 0| ≤ t.max_amplitude) :
    (Track.load fs (t.exportData fs).1 (t.exportData fs).2).sample_rate = t.sample_rate
    ∧ (Track.load fs (t.exportData fs).1 (t.exportData fs).2).cue_write
        = (Track.load fs (t.exportData fs).1 (t.exportData fs).2).samples.length
    ∧ (Track.load fs (t.exportData fs).1 (t.exportData fs).2).samples.length
        = t.samples.length
    ∧ (∀ i, i < t.samples.length →
        |(Track.load fs (t.exportData fs).1 (t.exportData fs).2).samples.getD i 0
            - t.samples.getD i 0 / t.max_amplitude| ≤ 1 / (fs : ℝ)) := by
  refine ⟨rfl, ?_, ?_, ?_⟩
  · simp [Track.load]
  · simp [Track.load, Track.exportData]
  · intro i hi
    rw [show (Track.load fs (t.exportData fs).1 (t.exportData fs).2).samples
        = (t.samples.map (quantize fs t.max_amplitude)).map
            (fun z : ℤ => (z : ℝ) / (fs : ℝ)) from rfl]
    rw [List.getD_eq_getElem _ _ (by simpa using hi), List.getElem_map, List.getElem_map,
      List.getD_eq_getElem _ _ hi]
    have hx := hin i hi
    rw [List.getD_eq_getElem _ _ hi] at hx
    exact quantize_div_close fs t.max_amplitude _ hfs hM hx

/-- Claim C5 counterexample: a Track with `max_amplitude = 2` and the single
(in-range) sample value 2 exports and re-loads as the value 1; the original
sample is not reproduced within one quantization step. -/
theorem claim_C5_counterexample :
    (Track.load 32767 ((⟨8000, 2, [2], 1⟩ : Track).exportData 32767).1
        ((⟨8000, 2, [2], 1⟩ : Track).exportData 32767).2).samples = [1]
    ∧ ¬(|(1 : ℝ) - 2| ≤ 1 / (32767 : ℝ)) := by
  constructor
  · rw [show ((⟨8000, 2, [2], 1⟩ : Track).exportData 32767).2
        = [quantize 32767 2 2] from rfl,
      quantize_sat_top 32767 2 2 (by norm_num) (by norm_num)]
    unfold Track.load
    norm_num
  · rw [show |(1 : ℝ) - 2| = 1 from by norm_num]
    norm_num

theorem claim_C5_roundtrip_witness :
    (Track.load 32767 ((⟨8000, 1, [1], 1⟩ : Track).exportData 32767).1
        ((⟨8000, 1, [1], 1⟩ : Track).exportData 32767).2).sample_rate
      = (⟨8000, 1, [1], 1⟩ : Track).sample_rate :=
  (claim_C5_roundtrip 32767 ⟨8000, 1, [1], 1⟩ (by norm_num) (by norm_num)
    (fun i hi => by
      have h0 : i = 0 := Nat.lt_one_iff.mp (by simpa using hi)
      subst h0
      norm_num)).1
